import Mathlib

/-!
Shallow embedding of the diagram-model derivation of
`src/oml-code/packages/language/src/oml-diagram.ts` (the version that carries
`computeCardinalityMap` / `computeRelationSubsets`).

Modelling conventions:
* A lazily resolved cross-reference `x?.ref?.name` is embedded as an
  `Option String`: `none` when the reference is unresolved (or the target is
  unnamed), `some n` when it resolves to a term named `n`.  JavaScript
  truthiness of a name (`if (!name) ...`) is the conjunction of presence and
  being non-empty, and is spelled out at every use site.
* A JavaScript `Map` is embedded as an association list; `Map.set` replaces
  the value at the first occurrence of the key (preserving its position,
  exactly as a JS `Map` does) and appends otherwise.
* The builder's entry point takes `Option Vocabulary`: `none` stands for a
  parse result whose root is absent or is not a vocabulary (the
  `isVocabulary(root)` guard failing).  The function is total, so no failure
  is ever surfaced as an error.
-/

namespace OmlDiagram

/-- Association-list model of a JavaScript `Map` keyed by strings:
`mapGet` is `Map.get` (first matching key wins). -/
def mapGet {α : Type} : List (String × α) → String → Option α
  | [], _ => none
  | (k, v) :: rest, key => if k = key then some v else mapGet rest key

/-- `Map.has`. -/
def mapHas {α : Type} (m : List (String × α)) (key : String) : Bool :=
  (mapGet m key).isSome

/-- `Map.set`: overwrite the value at the first occurrence of the key keeping
its position, append a fresh entry otherwise (JS `Map` insertion order). -/
def mapSet {α : Type} : List (String × α) → String → α → List (String × α)
  | [], key, v => [(key, v)]
  | (k, w) :: rest, key, v =>
      if k = key then (k, v) :: rest else (k, w) :: mapSet rest key v

/-- `PropertyCardinalityRestrictionAxiom.kind` (`'exactly' | 'min' | 'max'`). -/
inductive CardKind where
  | exactly
  | min
  | max
deriving DecidableEq

/-- What `r.property?.ref` resolves to, as the code inspects it:
`relation name` when the resolved property has a `forwardRelation` or
`reverseRelation` field (i.e. is a RelationEntity or UnreifiedRelation, whose
`name` may itself be missing); `nonRelation` for scalar properties and other
non-relation properties; `unresolved` when `.ref` is `undefined`. -/
inductive PropRef where
  | unresolved
  | relation (name : Option String)
  | nonRelation
deriving DecidableEq

/-- A `PropertyCardinalityRestrictionAxiom`: restricted property reference,
restriction kind and integer cardinality. -/
structure CardRestriction where
  property : PropRef
  kind : CardKind
  cardinality : Nat
deriving DecidableEq

/-- An owned property restriction: the cardinality form the code keeps
(`isPropertyCardinalityRestrictionAxiom`), or any other restriction form,
which the code skips with `continue`. -/
inductive PropertyRestriction where
  | cardinality (r : CardRestriction)
  | nonCardinality
deriving DecidableEq

/-- Fields of a Concept / Aspect statement that the builder reads. -/
structure EntityData where
  name : Option String
  ownedSpecializations : List (Option String) := []
  ownedPropertyRestrictions : List PropertyRestriction := []
deriving DecidableEq

/-- Fields of a RelationEntity / UnreifiedRelation statement that the builder
reads. `sources` / `targets` hold the resolved names of the entity
references; `forwardRelation` / `reverseRelation` hold
`forwardRelation?.name` / `reverseRelation?.name`. -/
structure RelData where
  name : Option String
  ownedSpecializations : List (Option String) := []
  ownedPropertyRestrictions : List PropertyRestriction := []
  sources : List (Option String) := []
  targets : List (Option String) := []
  forwardRelation : Option String := none
  reverseRelation : Option String := none
  functional : Bool := false
deriving DecidableEq

/-- A top-level vocabulary statement. `otherTerm` covers statement kinds the
classification pass ignores (scalar properties, rules, ...); the cardinality
pass still reads their owned property restrictions
(`container.ownedPropertyRestrictions ?? []` is applied to every statement). -/
inductive Stmt where
  | concept (data : EntityData)
  | aspect (data : EntityData)
  | relationEntity (data : RelData)
  | unreifiedRelation (data : RelData)
  | otherTerm (name : Option String) (ownedPropertyRestrictions : List PropertyRestriction)
deriving DecidableEq

/-- `Vocabulary.ownedStatements ?? []`. -/
structure Vocabulary where
  ownedStatements : List Stmt
deriving DecidableEq

/-- `stmt.name` as read on an arbitrary statement. -/
def stmtName : Stmt → Option String
  | .concept d => d.name
  | .aspect d => d.name
  | .relationEntity d => d.name
  | .unreifiedRelation d => d.name
  | .otherTerm n _ => n

/-- `(stmt as any).ownedPropertyRestrictions ?? []`. -/
def stmtRestrictions : Stmt → List PropertyRestriction
  | .concept d => d.ownedPropertyRestrictions
  | .aspect d => d.ownedPropertyRestrictions
  | .relationEntity d => d.ownedPropertyRestrictions
  | .unreifiedRelation d => d.ownedPropertyRestrictions
  | .otherTerm _ rs => rs

/-- `(t as any).ownedSpecializations ?? []`, each axiom reduced to
`superTerm?.ref?.name`. -/
def stmtSpecializations : Stmt → List (Option String)
  | .concept d => d.ownedSpecializations
  | .aspect d => d.ownedSpecializations
  | .relationEntity d => d.ownedSpecializations
  | .unreifiedRelation d => d.ownedSpecializations
  | .otherTerm _ _ => []

/-- `DiagramNode.kind` ('relation' is declared in the TS type but never used
for a node). -/
inductive NodeKind where
  | concept
  | aspect
  | relationEntity
  | relation
deriving DecidableEq

/-- `DiagramNode`. -/
structure DiagramNode where
  id : String
  label : String
  kind : NodeKind
deriving DecidableEq

/-- `DiagramEdge.kind`. -/
inductive EdgeKind where
  | specialization
  | relation
deriving DecidableEq

/-- `DiagramEdge`; optional fields default to `none` (absent). `labelTail`
and `labelHead` exist in the TS type but are never assigned by the builder. -/
structure DiagramEdge where
  id : String
  source : String
  target : String
  kind : EdgeKind
  label : Option String := none
  labelTail : Option String := none
  labelHead : Option String := none
  hasMarker : Option Bool := none
deriving DecidableEq

/-- `DiagramModel`. -/
structure DiagramModel where
  nodes : List DiagramNode
  edges : List DiagramEdge
deriving DecidableEq

/-- `formatCardinality`. -/
def formatCardinality : CardKind → Nat → String
  | .exactly, v => "[" ++ toString v ++ "]"
  | .min, v => "[" ++ toString v ++ "..*]"
  | .max, v => "[0.." ++ toString v ++ "]"

/-- The `push` helper of `computeCardinalityMap`: record
`formatCardinality` under `<entityName>::<relName>` first-write-wins,
skipping unnamed owners, unresolved/non-relation properties and unnamed
relations. -/
def pushCard (m : List (String × String)) (entityName : Option String)
    (prop : PropRef) (kind : CardKind) (card : Nat) : List (String × String) :=
  match entityName, prop with
  | some ename, PropRef.relation relNameOpt =>
    if ename ≠ "" then
      match relNameOpt with
      | some rname =>
        if rname ≠ "" then
          let key := ename ++ "::" ++ rname
          if mapHas m key = true then m else mapSet m key (formatCardinality kind card)
        else m
      | none => m
    else m
  | _, _ => m

/-- One step of the functional `[0..1]` fallback: for a source reference of
relation `relName`, if the source resolves to a named entity, the key is not
yet present, and the relation is functional, record `[0..1]`. -/
def cardFallbackStep (relName : String) (functional : Bool)
    (m : List (String × String)) (s : Option String) : List (String × String) :=
  match s with
  | some entName =>
    if entName ≠ "" then
      let key := entName ++ "::" ++ relName
      if mapHas m key = false ∧ functional = true then mapSet m key "[0..1]" else m
    else m
  | none => m

/-- One owned restriction of the explicit pass: `push` the cardinality
restrictions, skip (`continue`) every other restriction form. -/
def explicitStep (nm : Option String) (acc : List (String × String)) :
    PropertyRestriction → List (String × String)
  | .cardinality c => pushCard acc nm c.property c.kind c.cardinality
  | .nonCardinality => acc

/-- The body of `computeCardinalityMap`'s single statement loop: first the
owned cardinality restrictions of the statement (any statement kind), then —
when the statement is a named relation — the functional fallback over its
source references. -/
def cardStep (m : List (String × String)) (stmt : Stmt) : List (String × String) :=
  let m1 := (stmtRestrictions stmt).foldl (explicitStep (stmtName stmt)) m
  match stmt with
  | .relationEntity r =>
    match r.name with
    | some relName =>
      if relName ≠ "" then r.sources.foldl (cardFallbackStep relName r.functional) m1 else m1
    | none => m1
  | .unreifiedRelation r =>
    match r.name with
    | some relName =>
      if relName ≠ "" then r.sources.foldl (cardFallbackStep relName r.functional) m1 else m1
    | none => m1
  | _ => m1

/-- `computeCardinalityMap`. -/
def computeCardinalityMap (vocab : Vocabulary) : List (String × String) :=
  vocab.ownedStatements.foldl cardStep []

/-- One specialization axiom of the `record` helper of
`computeRelationSubsets`: append the resolved super name to the relation's
list unless already present (the code calls `map.set` even when the name is
already present, which leaves the map unchanged). -/
def recordSubsStep (subName : String) (m : List (String × List String))
    (sup : Option String) : List (String × List String) :=
  match sup with
  | some supName =>
    if supName ≠ "" then
      let arr := (mapGet m subName).getD []
      if arr.contains supName then m else mapSet m subName (arr ++ [supName])
    else m
  | none => m

/-- The `record` helper of `computeRelationSubsets`. -/
def recordSubs (m : List (String × List String)) (subName : Option String)
    (specs : List (Option String)) : List (String × List String) :=
  match subName with
  | some sn => if sn ≠ "" then specs.foldl (recordSubsStep sn) m else m
  | none => m

/-- `computeRelationSubsets`. -/
def computeRelationSubsets (vocab : Vocabulary) : List (String × List String) :=
  vocab.ownedStatements.foldl
    (fun m stmt =>
      match stmt with
      | .relationEntity r => recordSubs m r.name r.ownedSpecializations
      | .unreifiedRelation r => recordSubs m r.name r.ownedSpecializations
      | _ => m) []

/-- The node pushed for one statement by the classification pass of
`computeDiagramModel` (`none` for UnreifiedRelations, unnamed terms and other
statement kinds). -/
def nodeOf : Stmt → Option DiagramNode
  | .concept d =>
    match d.name with
    | some n => if n ≠ "" then some { id := n, label := n, kind := .concept } else none
    | none => none
  | .aspect d =>
    match d.name with
    | some n => if n ≠ "" then some { id := n, label := n, kind := .aspect } else none
    | none => none
  | .relationEntity d =>
    match d.name with
    | some n => if n ≠ "" then some { id := n, label := n, kind := .relationEntity } else none
    | none => none
  | .unreifiedRelation _ => none
  | .otherTerm _ _ => none

/-- The id of the node a statement would contribute. -/
def nodeIdOf (stmt : Stmt) : Option String :=
  (nodeOf stmt).map DiagramNode.id

/-- One statement of the classification pass: register named
Concepts/Aspects/RelationEntities/UnreifiedRelations in `termByName` and push
a node for all of them except UnreifiedRelations. -/
def classifyStep (acc : List (String × Stmt) × List DiagramNode) (stmt : Stmt) :
    List (String × Stmt) × List DiagramNode :=
  match stmt with
  | .concept d =>
    match d.name with
    | some n =>
      if n ≠ "" then
        (mapSet acc.1 n stmt, acc.2 ++ [{ id := n, label := n, kind := .concept }])
      else acc
    | none => acc
  | .aspect d =>
    match d.name with
    | some n =>
      if n ≠ "" then
        (mapSet acc.1 n stmt, acc.2 ++ [{ id := n, label := n, kind := .aspect }])
      else acc
    | none => acc
  | .relationEntity d =>
    match d.name with
    | some n =>
      if n ≠ "" then
        (mapSet acc.1 n stmt, acc.2 ++ [{ id := n, label := n, kind := .relationEntity }])
      else acc
    | none => acc
  | .unreifiedRelation d =>
    match d.name with
    | some n => if n ≠ "" then (mapSet acc.1 n stmt, acc.2) else acc
    | none => acc
  | .otherTerm _ _ => acc

/-- The classification pass: `termByName` lookup plus the node list. -/
def classifyPass (vocab : Vocabulary) : List (String × Stmt) × List DiagramNode :=
  vocab.ownedStatements.foldl classifyStep ([], [])

/-- The `termByName` lookup the builder constructs for a vocabulary. -/
def termByNameOf (vocab : Vocabulary) : List (String × Stmt) :=
  (classifyPass vocab).1

/-- The specialization edge pushed for child `tName` and parent `superName`. -/
def specEdge (tName superName : String) : DiagramEdge :=
  { id := tName ++ "->" ++ superName
    source := tName
    target := superName
    kind := .specialization }

/-- The edges (zero or one) contributed by one specialization axiom of a term
in the specialization-edge pass. -/
def specEdgeOf (tbn : List (String × Stmt)) (t : Stmt) (sup : Option String) :
    List DiagramEdge :=
  match sup, stmtName t with
  | some superName, some tName =>
    if superName ≠ "" ∧ tName ≠ "" ∧ mapHas tbn superName = true then
      [specEdge tName superName]
    else []
  | _, _ => []

/-- Specialization edges contributed by one term of `termByName`. -/
def specEdgesForTerm (tbn : List (String × Stmt)) (t : Stmt) : List DiagramEdge :=
  (stmtSpecializations t).foldl (fun edges sup => edges ++ specEdgeOf tbn t sup) []

/-- The specialization-edge pass over `termByName.values()`. -/
def specializationEdges (tbn : List (String × Stmt)) : List DiagramEdge :=
  (tbn.map Prod.snd).foldl (fun edges t => edges ++ specEdgesForTerm tbn t) []

/-- The forward label: `"<forward> <card>"` when the cardinality lookup at
`<sourceName>::<relName>` yields a (truthy) string, else `"<forward>"`.
The lookup is only attempted when `forward` is truthy. -/
def forwardLabelOf (cards : List (String × String)) (relName forward sName : String) :
    String :=
  let forwardKey := sName ++ "::" ++ relName
  let forwardCard := if forward ≠ "" then mapGet cards forwardKey else none
  match forwardCard with
  | some c => if c ≠ "" then forward ++ " " ++ c else forward
  | none => forward

/-- The combined edge label: reverse line (when truthy) above the forward
line, with one `{subsets <super>}` line per direct super-relation appended
when the relation has supers and the forward label is truthy.  (In the code
the no-supers else-branch is `forwardLabel ?? reverseLabel ?? ''`; since
`forwardLabel` is a string and never nullish, that expression is just
`forwardLabel`.) -/
def combinedLabelOf (cards : List (String × String)) (subs : List (String × List String))
    (relName forward reverse sName : String) : String :=
  let forwardLabel := forwardLabelOf cards relName forward sName
  let reverseLabel := reverse
  let combinedLabel :=
    if reverseLabel ≠ "" ∧ forwardLabel ≠ "" then reverseLabel ++ "\n" ++ forwardLabel
    else forwardLabel
  let supers := (mapGet subs relName).getD []
  if supers.length > 0 ∧ forwardLabel ≠ "" then
    let subsetLines := String.intercalate "\n" (supers.map (fun sup => "\x7bsubsets " ++ sup ++ "\x7d"))
    if reverseLabel ≠ "" ∧ forwardLabel ≠ "" then
      reverseLabel ++ "\n" ++ forwardLabel ++ "\n" ++ subsetLines
    else forwardLabel ++ "\n" ++ subsetLines
  else combinedLabel

/-- First visual segment of a RelationEntity: source → relation-entity node,
no marker, carrying the combined label. -/
def reSegment1 (cards : List (String × String)) (subs : List (String × List String))
    (r : RelData) (relName sName : String) : DiagramEdge :=
  { id := sName ++ "->" ++ relName
    source := sName
    target := relName
    kind := .relation
    hasMarker := some false
    label := some (combinedLabelOf cards subs relName (r.forwardRelation.getD relName)
      (r.reverseRelation.getD "") sName) }

/-- Second visual segment of a RelationEntity: relation-entity node → target,
arrow marker, no label. -/
def reSegment2 (relName tName : String) : DiagramEdge :=
  { id := relName ++ "->" ++ tName
    source := relName
    target := tName
    kind := .relation
    hasMarker := some true }

/-- Direct edge of an UnreifiedRelation: source → target, arrow marker,
carrying the combined label. -/
def urEdge (cards : List (String × String)) (subs : List (String × List String))
    (r : RelData) (relName sName tName : String) : DiagramEdge :=
  { id := sName ++ "->" ++ tName
    source := sName
    target := tName
    kind := .relation
    hasMarker := some true
    label := some (combinedLabelOf cards subs relName (r.forwardRelation.getD relName)
      (r.reverseRelation.getD "") sName) }

/-- Edges pushed for one (source, target) pair of a RelationEntity (the two
visual segments), skipping unresolved / unnamed targets. -/
def rePairEdges (cards : List (String × String)) (subs : List (String × List String))
    (r : RelData) (relName sName : String) (tg : Option String) : List DiagramEdge :=
  match tg with
  | some tName =>
    if tName ≠ "" then [reSegment1 cards subs r relName sName, reSegment2 relName tName]
    else []
  | none => []

/-- Edges pushed for one source reference of a RelationEntity: the inner
targets loop. -/
def reSourceEdges (cards : List (String × String)) (subs : List (String × List String))
    (r : RelData) (relName : String) (s : Option String) : List DiagramEdge :=
  match s with
  | some sName =>
    if sName ≠ "" then
      r.targets.foldl (fun edges tg => edges ++ rePairEdges cards subs r relName sName tg) []
    else []
  | none => []

/-- Edges pushed for one (source, target) pair of an UnreifiedRelation (one
direct edge), skipping unresolved / unnamed targets. -/
def urPairEdges (cards : List (String × String)) (subs : List (String × List String))
    (r : RelData) (relName sName : String) (tg : Option String) : List DiagramEdge :=
  match tg with
  | some tName => if tName ≠ "" then [urEdge cards subs r relName sName tName] else []
  | none => []

/-- Edges pushed for one source reference of an UnreifiedRelation. -/
def urSourceEdges (cards : List (String × String)) (subs : List (String × List String))
    (r : RelData) (relName : String) (s : Option String) : List DiagramEdge :=
  match s with
  | some sName =>
    if sName ≠ "" then
      r.targets.foldl (fun edges tg => edges ++ urPairEdges cards subs r relName sName tg) []
    else []
  | none => []

/-- Relation edges contributed by one term of `termByName` in the
relation-edge pass. -/
def relationEdgesFor (cards : List (String × String)) (subs : List (String × List String))
    (t : Stmt) : List DiagramEdge :=
  match t with
  | .relationEntity r =>
    match r.name with
    | some relName =>
      if relName ≠ "" then
        r.sources.foldl (fun edges s => edges ++ reSourceEdges cards subs r relName s) []
      else []
    | none => []
  | .unreifiedRelation r =>
    match r.name with
    | some relName =>
      if relName ≠ "" then
        r.sources.foldl (fun edges s => edges ++ urSourceEdges cards subs r relName s) []
      else []
    | none => []
  | _ => []

/-- The relation-edge pass over `termByName.values()`. -/
def relationEdges (cards : List (String × String)) (subs : List (String × List String))
    (tbn : List (String × Stmt)) : List DiagramEdge :=
  (tbn.map Prod.snd).foldl (fun edges t => edges ++ relationEdgesFor cards subs t) []

/-- `computeDiagramModel`: empty model unless the root is a vocabulary;
otherwise classification pass, specialization-edge pass, relation-edge pass,
in push order. -/
def computeDiagramModel (root : Option Vocabulary) : DiagramModel :=
  match root with
  | some vocab =>
    let cardinalities := computeCardinalityMap vocab
    let subsetOf := computeRelationSubsets vocab
    let classified := classifyPass vocab
    { nodes := classified.2
      edges := specializationEdges classified.1 ++ relationEdges cardinalities subsetOf classified.1 }
  | none => { nodes := [], edges := [] }

/-- `true` exactly when processing this owned restriction on a statement with
this name would attempt an explicit write at `key` in the cardinality map
(named owner, property resolved to a named relation, and
`<owner>::<relation>` equal to `key`). -/
def restrictionWritesKey (ownerName : Option String) (pr : PropertyRestriction)
    (key : String) : Bool :=
  match ownerName, pr with
  | some ename, PropertyRestriction.cardinality c =>
    match c.property with
    | PropRef.relation (some rname) =>
        decide (ename ≠ "") && decide (rname ≠ "") && decide (ename ++ "::" ++ rname = key)
    | _ => false
  | _, _ => false

/-- Invariant used for the functional-default analysis: the cardinality map
either has no entry at `key` yet, or the entry is the fallback text
`[0..1]`. -/
def Val01 (m : List (String × String)) (key : String) : Prop :=
  mapGet m key = none ∨ mapGet m key = some "[0..1]"

/-- An edge of the diagram of `v` is the source-to-relation-entity segment of
a reified relation: it is the first visual segment pushed for some
RelationEntity of `termByName` and some resolved named (source, target)
pair. -/
def IsReifiedSourceSegment (v : Vocabulary) (e : DiagramEdge) : Prop :=
  ∃ r relName sName tName,
    Stmt.relationEntity r ∈ (termByNameOf v).map Prod.snd ∧
    r.name = some relName ∧ relName ≠ "" ∧
    some sName ∈ r.sources ∧ sName ≠ "" ∧
    some tName ∈ r.targets ∧ tName ≠ "" ∧
    e = reSegment1 (computeCardinalityMap v) (computeRelationSubsets v) r relName sName

/-- The relation entity of the §8 reified scenario:
`relation entity R [from A to B] forward f reverse r functional`. -/
def rC4 : RelData :=
  { name := some "R"
    sources := [some "A"]
    targets := [some "B"]
    forwardRelation := some "f"
    reverseRelation := some "r"
    functional := true }

/-- The §8 reified-relation scenario vocabulary:
`concept A; concept B; relation entity R [from A to B forward f reverse r]`,
`R` functional, no explicit cardinality. -/
def vC4 : Vocabulary :=
  { ownedStatements :=
      [ Stmt.concept { name := some "A" },
        Stmt.concept { name := some "B" },
        Stmt.relationEntity rC4 ] }

/-- The unreified relation of the §8 unreified scenario:
`relation r [from A to A forward self]`. -/
def rC5 : RelData :=
  { name := some "r"
    sources := [some "A"]
    targets := [some "A"]
    forwardRelation := some "self" }

/-- The §8 unreified-relation scenario vocabulary. -/
def vC5 : Vocabulary :=
  { ownedStatements := [ Stmt.concept { name := some "A" }, Stmt.unreifiedRelation rC5 ] }

/-- An explicit `restricts parent exactly 2` axiom (property resolving to the
relation named `parent`). -/
def parentRestriction : PropertyRestriction :=
  PropertyRestriction.cardinality
    { property := PropRef.relation (some "parent")
      kind := CardKind.exactly
      cardinality := 2 }

/-- A functional relation entity `parent` with source `A` and target `B`. -/
def parentRel : RelData :=
  { name := some "parent"
    sources := [some "A"]
    targets := [some "B"]
    functional := true }

/-- Vocabulary in which the relation `parent` is declared before the concept
`A` that owns the explicit `exactly 2` restriction on `(A, parent)`. -/
def vC1RelFirst : Vocabulary :=
  { ownedStatements :=
      [ Stmt.relationEntity parentRel,
        Stmt.concept { name := some "A", ownedPropertyRestrictions := [parentRestriction] } ] }

/-- The same vocabulary with the two statements swapped: the restricting
concept `A` is declared before the relation `parent`. -/
def vC1EntityFirst : Vocabulary :=
  { ownedStatements :=
      [ Stmt.concept { name := some "A", ownedPropertyRestrictions := [parentRestriction] },
        Stmt.relationEntity parentRel ] }

/-- A relation entity `father` from `A` to `B` specializing `parent`. -/
def fatherRel : RelData :=
  { name := some "father"
    sources := [some "A"]
    targets := [some "B"]
    ownedSpecializations := [some "parent"] }

/-- Vocabulary for the subset-annotation claim: `father` (reified)
specializes `parent`. -/
def vC3 : Vocabulary :=
  { ownedStatements :=
      [ Stmt.concept { name := some "A" },
        Stmt.concept { name := some "B" },
        Stmt.relationEntity { name := some "parent", sources := [some "A"], targets := [some "B"] },
        Stmt.relationEntity fatherRel ] }

/-- Vocabulary with two top-level concepts that carry the same name. -/
def vC2Dup : Vocabulary :=
  { ownedStatements := [ Stmt.concept { name := some "A" }, Stmt.concept { name := some "A" } ] }

/-- Vocabulary in which concept `C` specializes the unreified relation `r`:
`r` is registered in `termByName` but contributes no node. -/
def vC10 : Vocabulary :=
  { ownedStatements :=
      [ Stmt.unreifiedRelation { name := some "r" },
        Stmt.concept { name := some "C", ownedSpecializations := [some "r"] } ] }

/-- The first visual segment of `R` in the §8 reified scenario, as a record. -/
def eC9 : DiagramEdge :=
  { id := "A->R"
    source := "A"
    target := "R"
    kind := EdgeKind.relation
    label := some "r\nf [0..1]"
    hasMarker := some false }

/-! ### Map lemmas -/

theorem mapGet_mapSet_self {α : Type} (m : List (String × α)) (k : String) (v : α) :
    mapGet (mapSet m k v) k = some v := by
  induction m with
  | nil => simp [mapSet, mapGet]
  | cons p rest ih =>
    obtain ⟨k1, v1⟩ := p
    by_cases h : k1 = k
    · subst h; simp [mapSet, mapGet]
    · simp [mapSet, mapGet, h, ih]

theorem mapGet_mapSet_ne {α : Type} (m : List (String × α)) {k k' : String} (v : α)
    (h : k' ≠ k) : mapGet (mapSet m k v) k' = mapGet m k' := by
  induction m with
  | nil => simp [mapSet, mapGet, Ne.symm h]
  | cons p rest ih =>
    obtain ⟨k1, v1⟩ := p
    by_cases h1 : k1 = k
    · subst h1
      simp [mapSet, mapGet, Ne.symm h]
    · by_cases h2 : k1 = k'
      · simp [mapSet, mapGet, h1, h2, h]
      · simp [mapSet, mapGet, h1, h2, ih]

theorem mapGet_mem {α : Type} {m : List (String × α)} {k : String} {v : α}
    (h : mapGet m k = some v) : (k, v) ∈ m := by
  induction m with
  | nil => simp [mapGet] at h
  | cons p rest ih =>
    obtain ⟨k1, v1⟩ := p
    by_cases h1 : k1 = k
    · subst h1
      simp [mapGet] at h
      simp [h]
    · simp [mapGet, h1] at h
      exact List.mem_cons_of_mem _ (ih h)

theorem mem_key_mapHas {α : Type} {m : List (String × α)} {k : String} {v : α}
    (h : (k, v) ∈ m) : mapHas m k = true := by
  induction m with
  | nil => simp at h
  | cons p rest ih =>
    obtain ⟨k1, v1⟩ := p
    rcases List.mem_cons.mp h with h1 | h1
    · injection h1 with hk hv
      subst hk
      simp [mapHas, mapGet]
    · by_cases h2 : k1 = k
      · simp [mapHas, mapGet, h2]
      · simpa [mapHas, mapGet, h2] using ih h1

theorem mem_mapSet_elim {α : Type} {m : List (String × α)} {k : String} {v : α}
    {p : String × α} (h : p ∈ mapSet m k v) : p = (k, v) ∨ p ∈ m := by
  induction m with
  | nil => simpa [mapSet] using h
  | cons q rest ih =>
    obtain ⟨k1, v1⟩ := q
    by_cases h1 : k1 = k
    · subst h1
      simp [mapSet] at h
      rcases h with h | h
      · exact Or.inl (by simp [h])
      · exact Or.inr (List.mem_cons_of_mem _ h)
    · simp [mapSet, h1] at h
      rcases h with h | h
      · exact Or.inr (by simp [h])
      · rcases ih h with h2 | h2
        · exact Or.inl h2
        · exact Or.inr (List.mem_cons_of_mem _ h2)

/-! ### Fold-to-bind conversion -/

theorem foldl_append_bind {α β : Type} (f : α → List β) :
    ∀ (l : List α) (acc : List β),
      l.foldl (fun es x => es ++ f x) acc = acc ++ l.flatMap f := by
  intro l
  induction l with
  | nil => intro acc; simp
  | cons x xs ih => intro acc; simp [ih, List.append_assoc]

/-! ### Classification-pass lemmas -/

theorem classifyStep_snd (acc : List (String × Stmt) × List DiagramNode) (stmt : Stmt) :
    (classifyStep acc stmt).2 = acc.2 ++ (nodeOf stmt).toList := by
  cases stmt with
  | concept d =>
    cases h : d.name with
    | none => simp [classifyStep, nodeOf, h]
    | some n => by_cases hn : n = "" <;> simp [classifyStep, nodeOf, h, hn]
  | aspect d =>
    cases h : d.name with
    | none => simp [classifyStep, nodeOf, h]
    | some n => by_cases hn : n = "" <;> simp [classifyStep, nodeOf, h, hn]
  | relationEntity d =>
    cases h : d.name with
    | none => simp [classifyStep, nodeOf, h]
    | some n => by_cases hn : n = "" <;> simp [classifyStep, nodeOf, h, hn]
  | unreifiedRelation d =>
    cases h : d.name with
    | none => simp [classifyStep, nodeOf, h]
    | some n => by_cases hn : n = "" <;> simp [classifyStep, nodeOf, h, hn]
  | otherTerm nm rs => simp [classifyStep, nodeOf]

theorem classify_foldl_snd :
    ∀ (stmts : List Stmt) (acc : List (String × Stmt) × List DiagramNode),
      (stmts.foldl classifyStep acc).2 = acc.2 ++ stmts.filterMap nodeOf := by
  intro stmts
  induction stmts with
  | nil => intro acc; simp
  | cons s rest ih =>
    intro acc
    rw [List.foldl_cons, ih, classifyStep_snd]
    cases h : nodeOf s <;> simp [List.filterMap_cons, h]

/-- The node list of the builder is exactly the per-statement node
contributions, in statement order. -/
theorem computeDiagramModel_nodes (v : Vocabulary) :
    (computeDiagramModel (some v)).nodes = v.ownedStatements.filterMap nodeOf := by
  have h := classify_foldl_snd v.ownedStatements ([], [])
  simpa [computeDiagramModel, classifyPass] using h

theorem computeDiagramModel_edges (v : Vocabulary) :
    (computeDiagramModel (some v)).edges =
      specializationEdges (termByNameOf v) ++
        relationEdges (computeCardinalityMap v) (computeRelationSubsets v) (termByNameOf v) := rfl

theorem classifyStep_fst_entry {acc : List (String × Stmt) × List DiagramNode} {stmt : Stmt}
    (hacc : ∀ q ∈ acc.1, stmtName q.2 = some q.1 ∧ q.1 ≠ "") :
    ∀ q ∈ (classifyStep acc stmt).1, stmtName q.2 = some q.1 ∧ q.1 ≠ "" := by
  intro q hq
  cases stmt with
  | concept d =>
    cases h : d.name with
    | none => simp [classifyStep, h] at hq; exact hacc q hq
    | some n =>
      by_cases hn : n = ""
      · simp [classifyStep, h, hn] at hq; exact hacc q hq
      · simp [classifyStep, h, hn] at hq
        rcases mem_mapSet_elim hq with h1 | h1
        · subst h1; exact ⟨by simp [stmtName, h], hn⟩
        · exact hacc q h1
  | aspect d =>
    cases h : d.name with
    | none => simp [classifyStep, h] at hq; exact hacc q hq
    | some n =>
      by_cases hn : n = ""
      · simp [classifyStep, h, hn] at hq; exact hacc q hq
      · simp [classifyStep, h, hn] at hq
        rcases mem_mapSet_elim hq with h1 | h1
        · subst h1; exact ⟨by simp [stmtName, h], hn⟩
        · exact hacc q h1
  | relationEntity d =>
    cases h : d.name with
    | none => simp [classifyStep, h] at hq; exact hacc q hq
    | some n =>
      by_cases hn : n = ""
      · simp [classifyStep, h, hn] at hq; exact hacc q hq
      · simp [classifyStep, h, hn] at hq
        rcases mem_mapSet_elim hq with h1 | h1
        · subst h1; exact ⟨by simp [stmtName, h], hn⟩
        · exact hacc q h1
  | unreifiedRelation d =>
    cases h : d.name with
    | none => simp [classifyStep, h] at hq; exact hacc q hq
    | some n =>
      by_cases hn : n = ""
      · simp [classifyStep, h, hn] at hq; exact hacc q hq
      · simp [classifyStep, h, hn] at hq
        rcases mem_mapSet_elim hq with h1 | h1
        · subst h1; exact ⟨by simp [stmtName, h], hn⟩
        · exact hacc q h1
  | otherTerm nm rs => simp [classifyStep] at hq; exact hacc q hq

theorem classify_foldl_fst_entry :
    ∀ (stmts : List Stmt) (acc : List (String × Stmt) × List DiagramNode),
      (∀ q ∈ acc.1, stmtName q.2 = some q.1 ∧ q.1 ≠ "") →
      ∀ q ∈ (stmts.foldl classifyStep acc).1, stmtName q.2 = some q.1 ∧ q.1 ≠ "" := by
  intro stmts
  induction stmts with
  | nil => intro acc hacc; exact hacc
  | cons s rest ih =>
    intro acc hacc
    rw [List.foldl_cons]
    exact ih _ (classifyStep_fst_entry hacc)

/-- Every entry of `termByName` maps a non-empty name to a statement carrying
exactly that name. -/
theorem termByNameOf_entry {v : Vocabulary} :
    ∀ q ∈ termByNameOf v, stmtName q.2 = some q.1 ∧ q.1 ≠ "" := by
  intro q hq
  exact classify_foldl_fst_entry v.ownedStatements ([], []) (by simp) q hq

/-! ### Edge-pass characterizations -/

theorem specEdgesForTerm_eq (tbn : List (String × Stmt)) (t : Stmt) :
    specEdgesForTerm tbn t = (stmtSpecializations t).flatMap (specEdgeOf tbn t) := by
  unfold specEdgesForTerm
  rw [foldl_append_bind]
  simp

theorem specializationEdges_eq (tbn : List (String × Stmt)) :
    specializationEdges tbn = (tbn.map Prod.snd).flatMap (specEdgesForTerm tbn) := by
  unfold specializationEdges
  rw [foldl_append_bind]
  simp

theorem relationEdges_eq (cards : List (String × String)) (subs : List (String × List String))
    (tbn : List (String × Stmt)) :
    relationEdges cards subs tbn = (tbn.map Prod.snd).flatMap (relationEdgesFor cards subs) := by
  unfold relationEdges
  rw [foldl_append_bind]
  simp

theorem relationEdgesFor_re_eq (cards : List (String × String))
    (subs : List (String × List String)) {r : RelData} {relName : String}
    (hname : r.name = some relName) (hrel : relName ≠ "") :
    relationEdgesFor cards subs (Stmt.relationEntity r) =
      r.sources.flatMap (reSourceEdges cards subs r relName) := by
  have h0 : relationEdgesFor cards subs (Stmt.relationEntity r)
      = r.sources.foldl (fun edges s => edges ++ reSourceEdges cards subs r relName s) [] := by
    simp [relationEdgesFor, hname, hrel]
  rw [h0, foldl_append_bind]
  simp

theorem relationEdgesFor_ur_eq (cards : List (String × String))
    (subs : List (String × List String)) {r : RelData} {relName : String}
    (hname : r.name = some relName) (hrel : relName ≠ "") :
    relationEdgesFor cards subs (Stmt.unreifiedRelation r) =
      r.sources.flatMap (urSourceEdges cards subs r relName) := by
  have h0 : relationEdgesFor cards subs (Stmt.unreifiedRelation r)
      = r.sources.foldl (fun edges s => edges ++ urSourceEdges cards subs r relName s) [] := by
    simp [relationEdgesFor, hname, hrel]
  rw [h0, foldl_append_bind]
  simp

theorem reSourceEdges_eq (cards : List (String × String))
    (subs : List (String × List String)) (r : RelData) (relName : String)
    {sName : String} (hs : sName ≠ "") :
    reSourceEdges cards subs r relName (some sName) =
      r.targets.flatMap (rePairEdges cards subs r relName sName) := by
  unfold reSourceEdges
  simp only [hs, ne_eq, not_false_iff, if_pos]
  rw [foldl_append_bind]
  simp

theorem urSourceEdges_eq (cards : List (String × String))
    (subs : List (String × List String)) (r : RelData) (relName : String)
    {sName : String} (hs : sName ≠ "") :
    urSourceEdges cards subs r relName (some sName) =
      r.targets.flatMap (urPairEdges cards subs r relName sName) := by
  unfold urSourceEdges
  simp only [hs, ne_eq, not_false_iff, if_pos]
  rw [foldl_append_bind]
  simp

theorem mem_specEdgeOf {tbn : List (String × Stmt)} {t : Stmt} {sup : Option String}
    {e : DiagramEdge} (h : e ∈ specEdgeOf tbn t sup) :
    ∃ superName tName, sup = some superName ∧ stmtName t = some tName ∧
      superName ≠ "" ∧ tName ≠ "" ∧ mapHas tbn superName = true ∧
      e = specEdge tName superName := by
  cases sup with
  | none => simp [specEdgeOf] at h
  | some superName =>
    cases ht : stmtName t with
    | none => simp [specEdgeOf, ht] at h
    | some tName =>
      have hred : specEdgeOf tbn t (some superName) =
          (if superName ≠ "" ∧ tName ≠ "" ∧ mapHas tbn superName = true
           then [specEdge tName superName] else []) := by
        simp [specEdgeOf, ht]
      by_cases hc : superName ≠ "" ∧ tName ≠ "" ∧ mapHas tbn superName = true
      · rw [hred, if_pos hc, List.mem_singleton] at h
        exact ⟨superName, tName, rfl, rfl, hc.1, hc.2.1, hc.2.2, h⟩
      · rw [hred, if_neg hc] at h
        simp at h

theorem specEdgeOf_self {tbn : List (String × Stmt)} {t : Stmt} {superName tName : String}
    (ht : stmtName t = some tName) (h1 : superName ≠ "") (h2 : tName ≠ "")
    (h3 : mapHas tbn superName = true) :
    specEdgeOf tbn t (some superName) = [specEdge tName superName] := by
  simp [specEdgeOf, ht, h1, h2, h3]

theorem mem_specializationEdges_iff {tbn : List (String × Stmt)} {e : DiagramEdge} :
    e ∈ specializationEdges tbn ↔
      ∃ t ∈ tbn.map Prod.snd, ∃ sup ∈ stmtSpecializations t, e ∈ specEdgeOf tbn t sup := by
  rw [specializationEdges_eq]
  simp [specEdgesForTerm_eq, List.mem_flatMap]

theorem mem_rePairEdges {cards : List (String × String)} {subs : List (String × List String)}
    {r : RelData} {relName sName : String} {tg : Option String} {e : DiagramEdge}
    (h : e ∈ rePairEdges cards subs r relName sName tg) :
    ∃ tName, tg = some tName ∧ tName ≠ "" ∧
      (e = reSegment1 cards subs r relName sName ∨ e = reSegment2 relName tName) := by
  cases tg with
  | none => simp [rePairEdges] at h
  | some tName =>
    by_cases ht : tName = ""
    · simp [rePairEdges, ht] at h
    · simp only [rePairEdges, ht, ne_eq, not_false_iff, if_pos] at h
      rcases List.mem_cons.mp h with h1 | h1
      · exact ⟨tName, rfl, ht, Or.inl h1⟩
      · exact ⟨tName, rfl, ht, Or.inr (List.mem_singleton.mp h1)⟩

theorem mem_urPairEdges {cards : List (String × String)} {subs : List (String × List String)}
    {r : RelData} {relName sName : String} {tg : Option String} {e : DiagramEdge}
    (h : e ∈ urPairEdges cards subs r relName sName tg) :
    ∃ tName, tg = some tName ∧ tName ≠ "" ∧ e = urEdge cards subs r relName sName tName := by
  cases tg with
  | none => simp [urPairEdges] at h
  | some tName =>
    by_cases ht : tName = ""
    · simp [urPairEdges, ht] at h
    · simp only [urPairEdges, ht, ne_eq, not_false_iff, if_pos, List.mem_singleton] at h
      exact ⟨tName, rfl, ht, h⟩

/-- Shape of any edge emitted by the relation-edge pass for one term: its
kind is `relation`, and it either carries the arrow marker, or it is the
first (source → relation-entity) segment of a named RelationEntity for some
resolved named (source, target) pair. -/
theorem mem_relationEdgesFor_shape {cards : List (String × String)}
    {subs : List (String × List String)} {t : Stmt} {e : DiagramEdge}
    (h : e ∈ relationEdgesFor cards subs t) :
    e.kind = EdgeKind.relation ∧
      (e.hasMarker = some true ∨
        ∃ r relName sName tName,
          t = Stmt.relationEntity r ∧ r.name = some relName ∧ relName ≠ "" ∧
          some sName ∈ r.sources ∧ sName ≠ "" ∧ some tName ∈ r.targets ∧ tName ≠ "" ∧
          e = reSegment1 cards subs r relName sName) := by
  cases t with
  | relationEntity r =>
    cases hname : r.name with
    | none => rw [relationEdgesFor, hname] at h; simp at h
    | some relName =>
      by_cases hrel : relName = ""
      · rw [relationEdgesFor, hname] at h; simp [hrel] at h
      · rw [relationEdgesFor_re_eq cards subs hname hrel] at h
        rcases List.mem_flatMap.mp h with ⟨s, hsmem, hse⟩
        cases s with
        | none => simp [reSourceEdges] at hse
        | some sName =>
          by_cases hs : sName = ""
          · simp [reSourceEdges, hs] at hse
          · rw [reSourceEdges_eq cards subs r relName hs] at hse
            rcases List.mem_flatMap.mp hse with ⟨tg, htmem, hte⟩
            rcases mem_rePairEdges hte with ⟨tName, rfl, ht, he | he⟩
            · subst he
              exact ⟨rfl, Or.inr ⟨r, relName, sName, tName, rfl, hname, hrel,
                hsmem, hs, htmem, ht, rfl⟩⟩
            · subst he
              exact ⟨rfl, Or.inl rfl⟩
  | unreifiedRelation r =>
    cases hname : r.name with
    | none => rw [relationEdgesFor, hname] at h; simp at h
    | some relName =>
      by_cases hrel : relName = ""
      · rw [relationEdgesFor, hname] at h; simp [hrel] at h
      · rw [relationEdgesFor_ur_eq cards subs hname hrel] at h
        rcases List.mem_flatMap.mp h with ⟨s, hsmem, hse⟩
        cases s with
        | none => simp [urSourceEdges] at hse
        | some sName =>
          by_cases hs : sName = ""
          · simp [urSourceEdges, hs] at hse
          · rw [urSourceEdges_eq cards subs r relName hs] at hse
            rcases List.mem_flatMap.mp hse with ⟨tg, htmem, hte⟩
            rcases mem_urPairEdges hte with ⟨tName, rfl, ht, he⟩
            subst he
            exact ⟨rfl, Or.inl rfl⟩
  | concept d => simp [relationEdgesFor] at h
  | aspect d => simp [relationEdgesFor] at h
  | otherTerm nm rs => simp [relationEdgesFor] at h

/-! ### Cardinality-map lemmas -/

theorem pushCard_preserve {m : List (String × String)} {nm : Option String} {prop : PropRef}
    {kind : CardKind} {card : Nat} {key v : String}
    (h : mapGet m key = some v) : mapGet (pushCard m nm prop kind card) key = some v := by
  cases nm with
  | none => cases prop <;> simpa [pushCard] using h
  | some ename =>
    cases prop with
    | unresolved => simpa [pushCard] using h
    | nonRelation => simpa [pushCard] using h
    | relation relNameOpt =>
      by_cases he : ename = ""
      · simpa [pushCard, he] using h
      · cases relNameOpt with
        | none => simpa [pushCard, he] using h
        | some rname =>
          by_cases hr : rname = ""
          · simpa [pushCard, he, hr] using h
          · by_cases hh : mapHas m (ename ++ "::" ++ rname) = true
            · simpa [pushCard, he, hr, hh] using h
            · have hred : pushCard m (some ename) (PropRef.relation (some rname)) kind card
                  = mapSet m (ename ++ "::" ++ rname) (formatCardinality kind card) := by
                simp [pushCard, he, hr, hh]
              rw [hred]
              by_cases hk : key = ename ++ "::" ++ rname
              · exfalso
                rw [hk] at h
                simp [mapHas, h] at hh
              · rw [mapGet_mapSet_ne _ _ hk]
                exact h

theorem cardFallbackStep_preserve {relName : String} {fn : Bool}
    {m : List (String × String)} {s : Option String} {key v : String}
    (h : mapGet m key = some v) :
    mapGet (cardFallbackStep relName fn m s) key = some v := by
  cases s with
  | none => simpa [cardFallbackStep] using h
  | some entName =>
    by_cases he : entName = ""
    · simpa [cardFallbackStep, he] using h
    · by_cases hc : mapHas m (entName ++ "::" ++ relName) = false ∧ fn = true
      · have hred : cardFallbackStep relName fn m (some entName)
            = mapSet m (entName ++ "::" ++ relName) "[0..1]" := by
          simp [cardFallbackStep, he, hc]
        rw [hred]
        by_cases hk : key = entName ++ "::" ++ relName
        · exfalso
          rw [hk] at h
          simp [mapHas, h] at hc
        · rw [mapGet_mapSet_ne _ _ hk]
          exact h
      · have hred : cardFallbackStep relName fn m (some entName) = m := by
          simp [cardFallbackStep, he, hc]
        rw [hred]
        exact h

theorem foldl_fallback_preserve {relName : String} {fn : Bool} {key v : String} :
    ∀ (srcs : List (Option String)) (m : List (String × String)),
      mapGet m key = some v →
      mapGet (srcs.foldl (cardFallbackStep relName fn) m) key = some v := by
  intro srcs
  induction srcs with
  | nil => intro m h; exact h
  | cons s rest ih => intro m h; exact ih _ (cardFallbackStep_preserve h)

theorem explicitStep_preserve {nm : Option String} {m : List (String × String)}
    {pr : PropertyRestriction} {key v : String} (h : mapGet m key = some v) :
    mapGet (explicitStep nm m pr) key = some v := by
  cases pr with
  | cardinality c => exact pushCard_preserve h
  | nonCardinality => exact h

theorem foldl_explicit_preserve {nm : Option String} {key v : String} :
    ∀ (rs : List PropertyRestriction) (m : List (String × String)),
      mapGet m key = some v → mapGet (rs.foldl (explicitStep nm) m) key = some v := by
  intro rs
  induction rs with
  | nil => intro m h; exact h
  | cons pr rest ih => intro m h; exact ih _ (explicitStep_preserve h)

theorem cardStep_preserve {m : List (String × String)} {stmt : Stmt} {key v : String}
    (h : mapGet m key = some v) : mapGet (cardStep m stmt) key = some v := by
  have h2 : mapGet ((stmtRestrictions stmt).foldl (explicitStep (stmtName stmt)) m) key = some v :=
    foldl_explicit_preserve (stmtRestrictions stmt) m h
  cases stmt with
  | relationEntity r =>
    cases hn : r.name with
    | none => simpa [cardStep, hn] using h2
    | some relName =>
      by_cases hr : relName = ""
      · simpa [cardStep, hn, hr] using h2
      · have hred : cardStep m (Stmt.relationEntity r)
            = r.sources.foldl (cardFallbackStep relName r.functional)
                ((stmtRestrictions (Stmt.relationEntity r)).foldl
                  (explicitStep (stmtName (Stmt.relationEntity r))) m) := by
          simp [cardStep, hn, hr]
        rw [hred]
        exact foldl_fallback_preserve _ _ h2
  | unreifiedRelation r =>
    cases hn : r.name with
    | none => simpa [cardStep, hn] using h2
    | some relName =>
      by_cases hr : relName = ""
      · simpa [cardStep, hn, hr] using h2
      · have hred : cardStep m (Stmt.unreifiedRelation r)
            = r.sources.foldl (cardFallbackStep relName r.functional)
                ((stmtRestrictions (Stmt.unreifiedRelation r)).foldl
                  (explicitStep (stmtName (Stmt.unreifiedRelation r))) m) := by
          simp [cardStep, hn, hr]
        rw [hred]
        exact foldl_fallback_preserve _ _ h2
  | concept d => simpa [cardStep] using h2
  | aspect d => simpa [cardStep] using h2
  | otherTerm nm rs => simpa [cardStep] using h2

theorem foldl_cardStep_preserve {key v : String} :
    ∀ (stmts : List Stmt) (m : List (String × String)),
      mapGet m key = some v → mapGet (stmts.foldl cardStep m) key = some v := by
  intro stmts
  induction stmts with
  | nil => intro m h; exact h
  | cons s rest ih => intro m h; exact ih _ (cardStep_preserve h)

theorem explicitStep_get_of_writes_false (nm : Option String) {pr : PropertyRestriction}
    {key : String} (hw : restrictionWritesKey nm pr key = false)
    (m : List (String × String)) :
    mapGet (explicitStep nm m pr) key = mapGet m key := by
  cases pr with
  | nonCardinality => rfl
  | cardinality c =>
    show mapGet (pushCard m nm c.property c.kind c.cardinality) key = mapGet m key
    cases nm with
    | none => cases c.property <;> simp [pushCard]
    | some ename =>
      cases hp : c.property with
      | unresolved => simp [pushCard]
      | nonRelation => simp [pushCard]
      | relation relNameOpt =>
        cases relNameOpt with
        | none => simp [pushCard]
        | some rname =>
          have hw2 : (decide (ename ≠ "") && decide (rname ≠ "")
              && decide (ename ++ "::" ++ rname = key)) = false := by
            simpa [restrictionWritesKey, hp] using hw
          by_cases he : ename = ""
          · simp [pushCard, he]
          · by_cases hr : rname = ""
            · simp [pushCard, hr]
            · have hk : ¬ (ename ++ "::" ++ rname = key) := by
                simpa [he, hr] using hw2
              by_cases hh : mapHas m (ename ++ "::" ++ rname) = true
              · simp [pushCard, he, hr, hh]
              · have hred : pushCard m (some ename) (PropRef.relation (some rname))
                    c.kind c.cardinality
                    = mapSet m (ename ++ "::" ++ rname) (formatCardinality c.kind c.cardinality) := by
                  simp [pushCard, he, hr, hh]
                rw [hred, mapGet_mapSet_ne _ _ (Ne.symm hk)]

theorem foldl_explicit_get (nm : Option String) {key : String} :
    ∀ (rs : List PropertyRestriction) (m : List (String × String)),
      (∀ pr ∈ rs, restrictionWritesKey nm pr key = false) →
      mapGet (rs.foldl (explicitStep nm) m) key = mapGet m key := by
  intro rs
  induction rs with
  | nil => intro m _; rfl
  | cons pr rest ih =>
    intro m hx
    rw [List.foldl_cons, ih _ (fun q hq => hx q (List.mem_cons_of_mem _ hq)),
      explicitStep_get_of_writes_false nm (hx pr (List.mem_cons_self pr rest)) m]

theorem cardFallbackStep_val01 {relName : String} {fn : Bool} {key : String}
    {m : List (String × String)} (s : Option String) (h : Val01 m key) :
    Val01 (cardFallbackStep relName fn m s) key := by
  cases s with
  | none => simpa [cardFallbackStep] using h
  | some entName =>
    by_cases he : entName = ""
    · simpa [cardFallbackStep, he] using h
    · by_cases hc : mapHas m (entName ++ "::" ++ relName) = false ∧ fn = true
      · have hred : cardFallbackStep relName fn m (some entName)
            = mapSet m (entName ++ "::" ++ relName) "[0..1]" := by
          simp [cardFallbackStep, he, hc]
        rw [Val01, hred]
        by_cases hk : key = entName ++ "::" ++ relName
        · exact Or.inr (by rw [hk, mapGet_mapSet_self])
        · rw [mapGet_mapSet_ne _ _ hk]
          exact h
      · have hred : cardFallbackStep relName fn m (some entName) = m := by
          simp [cardFallbackStep, he, hc]
        rw [Val01, hred]
        exact h

theorem foldl_fallback_val01 {relName : String} {fn : Bool} {key : String} :
    ∀ (srcs : List (Option String)) (m : List (String × String)),
      Val01 m key → Val01 (srcs.foldl (cardFallbackStep relName fn) m) key := by
  intro srcs
  induction srcs with
  | nil => intro m h; exact h
  | cons s rest ih => intro m h; exact ih _ (cardFallbackStep_val01 s h)

theorem cardStep_val01 {m : List (String × String)} {stmt : Stmt} {key : String}
    (hx : ∀ pr ∈ stmtRestrictions stmt, restrictionWritesKey (stmtName stmt) pr key = false)
    (h : Val01 m key) : Val01 (cardStep m stmt) key := by
  have h1 := foldl_explicit_get (stmtName stmt) (stmtRestrictions stmt) m hx
  have hv1 : Val01 ((stmtRestrictions stmt).foldl (explicitStep (stmtName stmt)) m) key := by
    rw [Val01, h1]
    exact h
  cases stmt with
  | relationEntity r =>
    cases hn : r.name with
    | none => simpa [cardStep, hn] using hv1
    | some relName =>
      by_cases hr : relName = ""
      · simpa [cardStep, hn, hr] using hv1
      · have hred : cardStep m (Stmt.relationEntity r)
            = r.sources.foldl (cardFallbackStep relName r.functional)
                ((stmtRestrictions (Stmt.relationEntity r)).foldl
                  (explicitStep (stmtName (Stmt.relationEntity r))) m) := by
          simp [cardStep, hn, hr]
        rw [hred]
        exact foldl_fallback_val01 _ _ hv1
  | unreifiedRelation r =>
    cases hn : r.name with
    | none => simpa [cardStep, hn] using hv1
    | some relName =>
      by_cases hr : relName = ""
      · simpa [cardStep, hn, hr] using hv1
      · have hred : cardStep m (Stmt.unreifiedRelation r)
            = r.sources.foldl (cardFallbackStep relName r.functional)
                ((stmtRestrictions (Stmt.unreifiedRelation r)).foldl
                  (explicitStep (stmtName (Stmt.unreifiedRelation r))) m) := by
          simp [cardStep, hn, hr]
        rw [hred]
        exact foldl_fallback_val01 _ _ hv1
  | concept d => simpa [cardStep] using hv1
  | aspect d => simpa [cardStep] using hv1
  | otherTerm nm rs => simpa [cardStep] using hv1

theorem foldl_fallback_sets {relName A : String} (hA : A ≠ "") :
    ∀ (srcs : List (Option String)) (m : List (String × String)),
      Val01 m (A ++ "::" ++ relName) → some A ∈ srcs →
      mapGet (srcs.foldl (cardFallbackStep relName true) m) (A ++ "::" ++ relName)
        = some "[0..1]" := by
  intro srcs
  induction srcs with
  | nil => intro m _ hmem; simp at hmem
  | cons s rest ih =>
    intro m hv hmem
    rw [List.foldl_cons]
    rcases List.mem_cons.mp hmem with heq | hmem2
    · subst heq
      by_cases hc : mapHas m (A ++ "::" ++ relName) = false ∧ (true : Bool) = true
      · have hred : cardFallbackStep relName true m (some A)
            = mapSet m (A ++ "::" ++ relName) "[0..1]" := by
          simp [cardFallbackStep, hA, hc]
        rw [hred]
        exact foldl_fallback_preserve rest _ (mapGet_mapSet_self m _ _)
      · have hh : mapHas m (A ++ "::" ++ relName) = true := by
          cases hmb : mapHas m (A ++ "::" ++ relName) with
          | false => exact absurd ⟨hmb, rfl⟩ hc
          | true => rfl
        have hsome : mapGet m (A ++ "::" ++ relName) = some "[0..1]" := by
          rcases hv with h0 | h0
          · rw [mapHas, h0] at hh
            simp at hh
          · exact h0
        have hred : cardFallbackStep relName true m (some A) = m := by
          simp [cardFallbackStep, hA, hh]
        rw [hred]
        exact foldl_fallback_preserve rest _ hsome
    · exact ih _ (cardFallbackStep_val01 s hv) hmem2

theorem cardMap_fold_final {r : RelData} {R A : String}
    (hname : r.name = some R) (hR : R ≠ "") (hfun : r.functional = true)
    (hsrc : some A ∈ r.sources) (hA : A ≠ "") :
    ∀ (stmts : List Stmt) (m : List (String × String)),
      (∀ stmt ∈ stmts, ∀ pr ∈ stmtRestrictions stmt,
        restrictionWritesKey (stmtName stmt) pr (A ++ "::" ++ R) = false) →
      Val01 m (A ++ "::" ++ R) →
      ((Stmt.relationEntity r ∈ stmts ∨ Stmt.unreifiedRelation r ∈ stmts) ∨
        mapGet m (A ++ "::" ++ R) = some "[0..1]") →
      mapGet (stmts.foldl cardStep m) (A ++ "::" ++ R) = some "[0..1]" := by
  intro stmts
  induction stmts with
  | nil =>
    intro m hx hv hd
    rcases hd with (hmem | hmem) | hsome
    · simp at hmem
    · simp at hmem
    · simpa using hsome
  | cons s rest ih =>
    intro m hx hv hd
    rw [List.foldl_cons]
    have hxs := hx s (List.mem_cons_self s rest)
    have hxrest : ∀ stmt ∈ rest, ∀ pr ∈ stmtRestrictions stmt,
        restrictionWritesKey (stmtName stmt) pr (A ++ "::" ++ R) = false :=
      fun stmt hm => hx stmt (List.mem_cons_of_mem _ hm)
    rcases hd with (hmem | hmem) | hsome
    · rcases List.mem_cons.mp hmem with heq | hmem2
      · subst heq
        have hv1 : Val01 ((stmtRestrictions (Stmt.relationEntity r)).foldl
            (explicitStep (stmtName (Stmt.relationEntity r))) m) (A ++ "::" ++ R) := by
          rw [Val01, foldl_explicit_get _ _ m hxs]
          exact hv
        have hred : cardStep m (Stmt.relationEntity r)
            = r.sources.foldl (cardFallbackStep R r.functional)
                ((stmtRestrictions (Stmt.relationEntity r)).foldl
                  (explicitStep (stmtName (Stmt.relationEntity r))) m) := by
          simp [cardStep, hname, hR]
        have hset : mapGet (cardStep m (Stmt.relationEntity r)) (A ++ "::" ++ R)
            = some "[0..1]" := by
          rw [hred, hfun]
          exact foldl_fallback_sets hA r.sources _ hv1 hsrc
        exact foldl_cardStep_preserve rest _ hset
      · exact ih _ hxrest (cardStep_val01 hxs hv) (Or.inl (Or.inl hmem2))
    · rcases List.mem_cons.mp hmem with heq | hmem2
      · subst heq
        have hv1 : Val01 ((stmtRestrictions (Stmt.unreifiedRelation r)).foldl
            (explicitStep (stmtName (Stmt.unreifiedRelation r))) m) (A ++ "::" ++ R) := by
          rw [Val01, foldl_explicit_get _ _ m hxs]
          exact hv
        have hred : cardStep m (Stmt.unreifiedRelation r)
            = r.sources.foldl (cardFallbackStep R r.functional)
                ((stmtRestrictions (Stmt.unreifiedRelation r)).foldl
                  (explicitStep (stmtName (Stmt.unreifiedRelation r))) m) := by
          simp [cardStep, hname, hR]
        have hset : mapGet (cardStep m (Stmt.unreifiedRelation r)) (A ++ "::" ++ R)
            = some "[0..1]" := by
          rw [hred, hfun]
          exact foldl_fallback_sets hA r.sources _ hv1 hsrc
        exact foldl_cardStep_preserve rest _ hset
      · exact ih _ hxrest (cardStep_val01 hxs hv) (Or.inl (Or.inr hmem2))
    · exact ih _ hxrest (cardStep_val01 hxs hv) (Or.inr (cardStep_preserve hsome))

/-! ### Label lemmas -/

theorem append_ne_empty_left {s t : String} (h : s ≠ "") : s ++ t ≠ "" := by
  intro he
  apply h
  have hd := congrArg String.data he
  simp at hd
  exact String.ext (by simp [hd])

theorem forwardLabelOf_ne_empty {cards : List (String × String)}
    {relName forward sName : String} (hf : forward ≠ "") :
    forwardLabelOf cards relName forward sName ≠ "" := by
  unfold forwardLabelOf
  simp only [hf, ne_eq, not_false_iff, if_true, if_pos]
  cases hmc : mapGet cards (sName ++ "::" ++ relName) with
  | none => exact hf
  | some c =>
    by_cases hcne : c = ""
    · simpa [hcne] using hf
    · simpa [hcne] using append_ne_empty_left (t := c) (append_ne_empty_left hf)

theorem forwardLabelOf_card01 {cards : List (String × String)}
    {relName forward sName : String}
    (hget : mapGet cards (sName ++ "::" ++ relName) = some "[0..1]") (hf : forward ≠ "") :
    forwardLabelOf cards relName forward sName = forward ++ " " ++ "[0..1]" := by
  unfold forwardLabelOf
  simp [hf, hget]

theorem forward_getD_ne_empty {r : RelData} {relName : String} (hrel : relName ≠ "")
    (hfw : r.forwardRelation ≠ some "") : r.forwardRelation.getD relName ≠ "" := by
  cases hfr : r.forwardRelation with
  | none => simpa using hrel
  | some f =>
    simp only [Option.getD_some]
    intro hf0
    exact hfw (by rw [hfr, hf0])

theorem combinedLabelOf_subsets {cards : List (String × String)}
    {subs : List (String × List String)} {relName forward reverse sName : String}
    {sups : List String} (hf : forward ≠ "")
    (hsubs : mapGet subs relName = some sups) (hsups : sups ≠ []) :
    combinedLabelOf cards subs relName forward reverse sName =
      (if reverse ≠ "" then reverse ++ "\n" ++ forwardLabelOf cards relName forward sName
       else forwardLabelOf cards relName forward sName) ++ "\n" ++
        String.intercalate "\n" (sups.map (fun sup => "\x7bsubsets " ++ sup ++ "\x7d")) := by
  have hfl : forwardLabelOf cards relName forward sName ≠ "" := forwardLabelOf_ne_empty hf
  have hlen : 0 < sups.length := List.length_pos.mpr hsups
  by_cases hr : reverse = ""
  · simp [combinedLabelOf, hsubs, hfl, hr, hlen]
  · simp [combinedLabelOf, hsubs, hfl, hr, hlen]

/-! ### Claim theorems -/

/-- C1: the claim says an explicit `exactly 2` restriction on `(A, parent)`
determines the recorded cardinality (`[2]`, label fragment `parent [2]`)
regardless of the relative declaration order of the restriction and the
relation.  The code violates this: when the functional relation `parent` is
declared before the restricting concept `A`, the `[0..1]` fallback is
recorded first and first-write-wins silently drops the explicit `exactly 2`;
with the opposite order the explicit `[2]` wins.  This theorem evaluates the
cardinality map and the forward label at both orders. -/
theorem c1_explicit_cardinality_order_dependent :
    mapGet (computeCardinalityMap vC1RelFirst) "A::parent" = some "[0..1]" ∧
    forwardLabelOf (computeCardinalityMap vC1RelFirst) "parent" "parent" "A" = "parent [0..1]" ∧
    mapGet (computeCardinalityMap vC1EntityFirst) "A::parent" = some "[2]" ∧
    forwardLabelOf (computeCardinalityMap vC1EntityFirst) "parent" "parent" "A" = "parent [2]" := by
  refine ⟨by decide, by decide, by decide, by decide⟩

/-- C2 counterexample: a vocabulary with two top-level concepts both named
`A` yields a diagram whose node-id list `[A, A]` is not pairwise distinct,
refuting the claim for inputs with duplicate term names. -/
theorem c2_counterexample :
    ¬ ((computeDiagramModel (some vC2Dup)).nodes.map DiagramNode.id).Nodup := by decide

/-- C2 (amended): node ids are pairwise distinct within one computed diagram
provided the vocabulary's node-producing named terms (concepts, aspects,
relation entities) have pairwise distinct names — the node-id list is exactly
the list of those names in statement order. -/
theorem c2_node_ids_nodup (v : Vocabulary)
    (h : (v.ownedStatements.filterMap nodeIdOf).Nodup) :
    ((computeDiagramModel (some v)).nodes.map DiagramNode.id).Nodup := by
  rw [computeDiagramModel_nodes, List.map_filterMap]
  simpa [nodeIdOf] using h

/-- C2 witness: the §8 scenario vocabulary has distinct node-producing names
and its diagram has pairwise-distinct node ids. -/
theorem c2_witness :
    (vC4.ownedStatements.filterMap nodeIdOf).Nodup ∧
      ((computeDiagramModel (some vC4)).nodes.map DiagramNode.id).Nodup :=
  ⟨by decide, c2_node_ids_nodup vC4 (by decide)⟩

/-- C3 counterexample: in a vocabulary where the reified relation `father`
specializes `parent` (as the Subsumption Resolver records), the
relation-entity-to-target segment `father->B` — an edge representing
`father` — is emitted with no label at all, hence without any
`{subsets parent}` line, refuting the claim that every edge representing the
relation carries that line. -/
theorem c3_counterexample :
    mapGet (computeRelationSubsets vC3) "father" = some ["parent"] ∧
    ({ id := "father->B", source := "father", target := "B", kind := EdgeKind.relation
       label := none, hasMarker := some true } : DiagramEdge)
      ∈ (computeDiagramModel (some vC3)).edges := ⟨by decide, by decide⟩

/-- C3 (amended): for a relation with super-relations, the `{subsets P}`
lines (one per direct super-relation, in resolver order) are appended to the
combined label carried by the label-bearing edge only: the
source-to-relation-entity segment for a RelationEntity, the direct edge for
an UnreifiedRelation; the relation-entity-to-target segment carries no
label. -/
theorem c3_subsets_on_labeled_edge_only (cards : List (String × String))
    (subs : List (String × List String)) (r : RelData)
    (relName sName tName : String) (sups : List String)
    (hname : r.name = some relName) (hrel : relName ≠ "")
    (hs2 : sName ≠ "") (ht2 : tName ≠ "")
    (hsubs : mapGet subs relName = some sups) (hsups : sups ≠ [])
    (hfw : r.forwardRelation ≠ some "") :
    combinedLabelOf cards subs relName (r.forwardRelation.getD relName)
        (r.reverseRelation.getD "") sName
      = (if r.reverseRelation.getD "" ≠ ""
         then r.reverseRelation.getD "" ++ "\n" ++
           forwardLabelOf cards relName (r.forwardRelation.getD relName) sName
         else forwardLabelOf cards relName (r.forwardRelation.getD relName) sName)
        ++ "\n" ++ String.intercalate "\n" (sups.map (fun sup => "\x7bsubsets " ++ sup ++ "\x7d")) ∧
    rePairEdges cards subs r relName sName (some tName)
      = [reSegment1 cards subs r relName sName, reSegment2 relName tName] ∧
    (reSegment1 cards subs r relName sName).label
      = some (combinedLabelOf cards subs relName (r.forwardRelation.getD relName)
          (r.reverseRelation.getD "") sName) ∧
    (reSegment2 relName tName).label = none ∧
    urPairEdges cards subs r relName sName (some tName)
      = [urEdge cards subs r relName sName tName] ∧
    (urEdge cards subs r relName sName tName).label
      = some (combinedLabelOf cards subs relName (r.forwardRelation.getD relName)
          (r.reverseRelation.getD "") sName) := by
  have hfne : r.forwardRelation.getD relName ≠ "" := forward_getD_ne_empty hrel hfw
  refine ⟨combinedLabelOf_subsets hfne hsubs hsups, ?_, rfl, rfl, ?_, rfl⟩
  · simp [rePairEdges, ht2]
  · simp [urPairEdges, ht2]

/-- C3 witness: at `father` specializing `parent`, the label-bearing edge's
combined label is `father` followed by the `{subsets parent}` line, and the
second segment has no label. -/
theorem c3_witness :
    combinedLabelOf [] [("father", ["parent"])] "father"
        (fatherRel.forwardRelation.getD "father") (fatherRel.reverseRelation.getD "") "A"
      = "father\n\x7bsubsets parent\x7d" ∧
    rePairEdges [] [("father", ["parent"])] fatherRel "father" "A" (some "B")
      = [reSegment1 [] [("father", ["parent"])] fatherRel "father" "A",
         reSegment2 "father" "B"] ∧
    (reSegment2 "father" "B").label = none := by
  have h := c3_subsets_on_labeled_edge_only [] [("father", ["parent"])] fatherRel
    "father" "A" "B" ["parent"] rfl (by decide) (by decide) (by decide) (by decide)
    (by decide) (by decide)
  exact ⟨h.1.trans (by decide), h.2.1, h.2.2.2.1⟩

/-- C4: for every named RelationEntity and every resolved named
(source, target) pair, the builder emits the two relation-kind edges
`source -> relationName` (no marker, carrying the combined label) and
`relationName -> target` (arrow marker); and on the §8 scenario the full
diagram is nodes `A (concept), B (concept), R (relation-entity)` with edges
`A->R` (no marker, label `"r\nf [0..1]"`) and `R->B` (marker). -/
theorem c4_relation_entity_edges (cards : List (String × String))
    (subs : List (String × List String)) (r : RelData) (relName sName tName : String)
    (hname : r.name = some relName) (hrel : relName ≠ "")
    (hs : some sName ∈ r.sources) (hs2 : sName ≠ "")
    (ht : some tName ∈ r.targets) (ht2 : tName ≠ "") :
    (reSegment1 cards subs r relName sName ∈
        relationEdgesFor cards subs (Stmt.relationEntity r) ∧
      reSegment2 relName tName ∈ relationEdgesFor cards subs (Stmt.relationEntity r) ∧
      rePairEdges cards subs r relName sName (some tName)
        = [reSegment1 cards subs r relName sName, reSegment2 relName tName] ∧
      (reSegment1 cards subs r relName sName).hasMarker = some false ∧
      (reSegment1 cards subs r relName sName).label
        = some (combinedLabelOf cards subs relName (r.forwardRelation.getD relName)
            (r.reverseRelation.getD "") sName) ∧
      (reSegment2 relName tName).hasMarker = some true) ∧
    computeDiagramModel (some vC4) =
      { nodes := [ { id := "A", label := "A", kind := NodeKind.concept },
                   { id := "B", label := "B", kind := NodeKind.concept },
                   { id := "R", label := "R", kind := NodeKind.relationEntity } ]
        edges := [ { id := "A->R", source := "A", target := "R", kind := EdgeKind.relation
                     label := some "r\nf [0..1]", hasMarker := some false },
                   { id := "R->B", source := "R", target := "B", kind := EdgeKind.relation
                     hasMarker := some true } ] } := by
  constructor
  · refine ⟨?_, ?_, by simp [rePairEdges, ht2], rfl, rfl, rfl⟩
    · rw [relationEdgesFor_re_eq cards subs hname hrel]
      refine List.mem_flatMap.mpr ⟨some sName, hs, ?_⟩
      rw [reSourceEdges_eq cards subs r relName hs2]
      refine List.mem_flatMap.mpr ⟨some tName, ht, ?_⟩
      simp [rePairEdges, ht2]
    · rw [relationEdgesFor_re_eq cards subs hname hrel]
      refine List.mem_flatMap.mpr ⟨some sName, hs, ?_⟩
      rw [reSourceEdges_eq cards subs r relName hs2]
      refine List.mem_flatMap.mpr ⟨some tName, ht, ?_⟩
      simp [rePairEdges, ht2]
  · decide

/-- C4 witness: the two segment edges of `R` in the §8 scenario are among the
relation edges emitted for `R`. -/
theorem c4_witness :
    reSegment1 [] [] rC4 "R" "A" ∈ relationEdgesFor [] [] (Stmt.relationEntity rC4) ∧
      reSegment2 "R" "B" ∈ relationEdgesFor [] [] (Stmt.relationEntity rC4) := by
  have h := c4_relation_entity_edges [] [] rC4 "R" "A" "B" rfl (by decide) (by decide)
    (by decide) (by decide) (by decide)
  exact ⟨h.1.1, h.1.2.1⟩

/-- C5: for every named UnreifiedRelation and every resolved named
(source, target) pair, the builder emits exactly one direct relation edge
`source -> target` with the arrow marker carrying the combined label in its
`label` field, and the classification pass contributes no node for an
UnreifiedRelation; and on the §8 unreified scenario the full diagram is one
node `A (concept)` and the single edge `A->A` (marker, label `"self"`). -/
theorem c5_unreified_edges (cards : List (String × String))
    (subs : List (String × List String)) (r : RelData) (relName sName tName : String)
    (hname : r.name = some relName) (hrel : relName ≠ "")
    (hs : some sName ∈ r.sources) (hs2 : sName ≠ "")
    (ht : some tName ∈ r.targets) (ht2 : tName ≠ "") :
    (urEdge cards subs r relName sName tName ∈
        relationEdgesFor cards subs (Stmt.unreifiedRelation r) ∧
      urPairEdges cards subs r relName sName (some tName)
        = [urEdge cards subs r relName sName tName] ∧
      (urEdge cards subs r relName sName tName).hasMarker = some true ∧
      (urEdge cards subs r relName sName tName).label
        = some (combinedLabelOf cards subs relName (r.forwardRelation.getD relName)
            (r.reverseRelation.getD "") sName) ∧
      nodeOf (Stmt.unreifiedRelation r) = none) ∧
    computeDiagramModel (some vC5) =
      { nodes := [ { id := "A", label := "A", kind := NodeKind.concept } ]
        edges := [ { id := "A->A", source := "A", target := "A", kind := EdgeKind.relation
                     label := some "self", hasMarker := some true } ] } := by
  constructor
  · refine ⟨?_, by simp [urPairEdges, ht2], rfl, rfl, rfl⟩
    rw [relationEdgesFor_ur_eq cards subs hname hrel]
    refine List.mem_flatMap.mpr ⟨some sName, hs, ?_⟩
    rw [urSourceEdges_eq cards subs r relName hs2]
    refine List.mem_flatMap.mpr ⟨some tName, ht, ?_⟩
    simp [urPairEdges, ht2]
  · decide

/-- C5 witness: the direct edge of `r` in the §8 unreified scenario is among
the relation edges emitted for `r`. -/
theorem c5_witness :
    urEdge [] [] rC5 "r" "A" "A" ∈ relationEdgesFor [] [] (Stmt.unreifiedRelation rC5) := by
  have h := c5_unreified_edges [] [] rC5 "r" "A" "A" rfl (by decide) (by decide)
    (by decide) (by decide) (by decide)
  exact h.1.1

/-- C6: for every functional relation `R` in the vocabulary with a source
resolving to the named entity `A`, if no statement owns an explicit
cardinality restriction that writes the key `A::R`, then the Cardinality
Resolver records `[0..1]` under `A::R`, and the forward label used on the
`A`-anchored edge of `R` is the forward display name, a space and
`[0..1]`. -/
theorem c6_functional_default (v : Vocabulary) (r : RelData) (A R : String)
    (hstmt : Stmt.relationEntity r ∈ v.ownedStatements ∨
      Stmt.unreifiedRelation r ∈ v.ownedStatements)
    (hfun : r.functional = true) (hname : r.name = some R) (hR : R ≠ "")
    (hsrc : some A ∈ r.sources) (hA : A ≠ "")
    (hfw : r.forwardRelation ≠ some "")
    (hnoexp : ∀ stmt ∈ v.ownedStatements, ∀ pr ∈ stmtRestrictions stmt,
      restrictionWritesKey (stmtName stmt) pr (A ++ "::" ++ R) = false) :
    mapGet (computeCardinalityMap v) (A ++ "::" ++ R) = some "[0..1]" ∧
    forwardLabelOf (computeCardinalityMap v) R (r.forwardRelation.getD R) A
      = r.forwardRelation.getD R ++ " " ++ "[0..1]" := by
  have hget : mapGet (computeCardinalityMap v) (A ++ "::" ++ R) = some "[0..1]" := by
    unfold computeCardinalityMap
    exact cardMap_fold_final hname hR hfun hsrc hA v.ownedStatements []
      hnoexp (Or.inl rfl) (Or.inl hstmt)
  exact ⟨hget, forwardLabelOf_card01 hget (forward_getD_ne_empty hR hfw)⟩

/-- C6 witness: in the §8 scenario, the functional relation `R` with source
`A` and no explicit restriction gets `[0..1]` under `A::R` and forward label
`f [0..1]`. -/
theorem c6_witness :
    mapGet (computeCardinalityMap vC4) ("A" ++ "::" ++ "R") = some "[0..1]" ∧
    forwardLabelOf (computeCardinalityMap vC4) "R" (rC4.forwardRelation.getD "R") "A"
      = rC4.forwardRelation.getD "R" ++ " " ++ "[0..1]" :=
  c6_functional_default vC4 rC4 "A" "R" (Or.inl (by decide)) rfl rfl (by decide)
    (by decide) (by decide) (by decide) (by decide)

/-- C7: for every term `C` registered in the classification lookup that owns
a specialization axiom whose super-term resolves to the name `P`, the
specialization edge with id `C->P`, source `C` and target `P` is in the
output if and only if `P` is present in the lookup. -/
theorem c7_specialization_edge_iff (v : Vocabulary) (C P : String) (t : Stmt)
    (hC : mapGet (termByNameOf v) C = some t)
    (hax : some P ∈ stmtSpecializations t) (hP : P ≠ "") :
    specEdge C P ∈ (computeDiagramModel (some v)).edges ↔
      mapHas (termByNameOf v) P = true := by
  have hmem : (C, t) ∈ termByNameOf v := mapGet_mem hC
  obtain ⟨hnm, hCne⟩ := termByNameOf_entry (C, t) hmem
  constructor
  · intro he
    rw [computeDiagramModel_edges] at he
    rcases List.mem_append.mp he with hsp | hrel
    · rcases mem_specializationEdges_iff.mp hsp with ⟨t2, ht2, sup, hsup, hin⟩
      rcases mem_specEdgeOf hin with ⟨superName, tName, hs1, hs2, hs3, hs4, hs5, heq⟩
      have hPs : P = superName := by simpa [specEdge] using congrArg DiagramEdge.target heq
      rw [hPs]
      exact hs5
    · exfalso
      rw [relationEdges_eq] at hrel
      rcases List.mem_flatMap.mp hrel with ⟨t2, _, hin⟩
      have hk := (mem_relationEdgesFor_shape hin).1
      simp [specEdge] at hk
  · intro hhas
    rw [computeDiagramModel_edges]
    refine List.mem_append.mpr (Or.inl ?_)
    refine mem_specializationEdges_iff.mpr ⟨t, ?_, some P, hax, ?_⟩
    · exact List.mem_map.mpr ⟨(C, t), hmem, rfl⟩
    · rw [specEdgeOf_self hnm hP hCne hhas]
      exact List.mem_singleton.mpr rfl

/-- C7 witness: in the subset vocabulary, `father` owns an axiom resolving to
`parent`, and the edge `father->parent` is present iff `parent` is in the
lookup. -/
theorem c7_witness :
    specEdge "father" "parent" ∈ (computeDiagramModel (some vC3)).edges ↔
      mapHas (termByNameOf vC3) "parent" = true :=
  c7_specialization_edge_iff vC3 "father" "parent" (Stmt.relationEntity fatherRel)
    (by decide) (by decide) (by decide)

/-- C8: a parsed document whose root is absent or not a vocabulary yields
exactly the empty diagram; `computeDiagramModel` is total, so this outcome is
a normal return value, never an error. -/
theorem c8_non_vocabulary_empty :
    computeDiagramModel none = { nodes := [], edges := [] } := rfl

/-- C9: in every computed diagram, an edge's `hasMarker` is explicitly
`false` exactly when the edge is the source-to-relation-entity segment of a
reified relation; every other relation-kind edge has it explicitly `true`;
and specialization edges never have it set. -/
theorem c9_marker_invariant (v : Vocabulary) (e : DiagramEdge)
    (he : e ∈ (computeDiagramModel (some v)).edges) :
    (e.hasMarker = some false ↔ IsReifiedSourceSegment v e) ∧
    (e.kind = EdgeKind.specialization → e.hasMarker = none) ∧
    (e.kind = EdgeKind.relation → e.hasMarker = some false ∨ e.hasMarker = some true) := by
  rw [computeDiagramModel_edges] at he
  rcases List.mem_append.mp he with hsp | hrel
  · rcases mem_specializationEdges_iff.mp hsp with ⟨t, ht, sup, hsup, hin⟩
    rcases mem_specEdgeOf hin with ⟨superName, tName, hs1, hs2, hs3, hs4, hs5, heq⟩
    subst heq
    refine ⟨⟨fun hmk => absurd hmk (by simp [specEdge]), fun hrs => ?_⟩,
      fun _ => rfl, fun hk => absurd hk (by simp [specEdge])⟩
    rcases hrs with ⟨r, relName, sName, tName2, _, _, _, _, _, _, _, heq2⟩
    exact absurd (congrArg DiagramEdge.kind heq2) (by simp [specEdge, reSegment1])
  · rw [relationEdges_eq] at hrel
    rcases List.mem_flatMap.mp hrel with ⟨t, htmem, hin⟩
    obtain ⟨hkind, hsh⟩ := mem_relationEdgesFor_shape hin
    refine ⟨⟨fun hmk => ?_, fun hrs => ?_⟩, fun hk => absurd hk (by simp [hkind]), fun _ => ?_⟩
    · rcases hsh with hmk2 | ⟨r, relName, sName, tName, hteq, h1, h2, h3, h4, h5, h6, heq⟩
      · rw [hmk] at hmk2
        exact absurd hmk2 (by simp)
      · exact ⟨r, relName, sName, tName, by rw [← hteq]; exact htmem,
          h1, h2, h3, h4, h5, h6, heq⟩
    · rcases hrs with ⟨r, relName, sName, tName, _, _, _, _, _, _, _, heq⟩
      rw [heq]
      rfl
    · rcases hsh with hmk | ⟨r, relName, sName, tName, _, _, _, _, _, _, _, heq⟩
      · exact Or.inr hmk
      · exact Or.inl (by rw [heq]; rfl)

/-- C9 witness: the first segment of `R` in the §8 scenario is an edge of the
diagram with `hasMarker` explicitly `false`, and the invariant instantiates
at it. -/
theorem c9_witness :
    (eC9.hasMarker = some false ↔ IsReifiedSourceSegment vC4 eC9) ∧
    (eC9.kind = EdgeKind.specialization → eC9.hasMarker = none) ∧
    (eC9.kind = EdgeKind.relation → eC9.hasMarker = some false ∨ eC9.hasMarker = some true) :=
  c9_marker_invariant vC4 eC9 (by decide)

/-- C10: every specialization edge of a computed diagram has both endpoints
registered in the classification lookup of the vocabulary; yet such an
endpoint need not be the id of any emitted node, since an unreified relation
is registered in the lookup but produces no node (demonstrated on a concrete
vocabulary). -/
theorem c10_spec_endpoints_in_lookup (v : Vocabulary) (e : DiagramEdge)
    (he : e ∈ (computeDiagramModel (some v)).edges)
    (hk : e.kind = EdgeKind.specialization) :
    (mapHas (termByNameOf v) e.source = true ∧ mapHas (termByNameOf v) e.target = true) ∧
    (specEdge "C" "r" ∈ (computeDiagramModel (some vC10)).edges ∧
      mapHas (termByNameOf vC10) "r" = true ∧
      "r" ∉ (computeDiagramModel (some vC10)).nodes.map DiagramNode.id) := by
  refine ⟨?_, by decide, by decide, by decide⟩
  rw [computeDiagramModel_edges] at he
  rcases List.mem_append.mp he with hsp | hrel
  · rcases mem_specializationEdges_iff.mp hsp with ⟨t, ht, sup, hsup, hin⟩
    rcases mem_specEdgeOf hin with ⟨superName, tName, hs1, hs2, hs3, hs4, hs5, heq⟩
    subst heq
    constructor
    · rcases List.mem_map.mp ht with ⟨q, hq, hq2⟩
      obtain ⟨k, st⟩ := q
      obtain ⟨hqn, hqne⟩ := termByNameOf_entry (k, st) hq
      rw [show (k, st).2 = st from rfl] at hq2
      rw [hq2] at hqn
      have hkt : k = tName := Option.some.inj (hqn.symm.trans hs2)
      subst hkt
      exact mem_key_mapHas hq
    · exact hs5
  · exfalso
    rw [relationEdges_eq] at hrel
    rcases List.mem_flatMap.mp hrel with ⟨t, _, hin⟩
    have hk2 := (mem_relationEdgesFor_shape hin).1
    rw [hk2] at hk
    exact absurd hk (by simp)

/-- C10 witness: the invariant instantiated at the concrete specialization
edge `C->r` of the vocabulary in which `C` specializes the unreified relation
`r`. -/
theorem c10_witness :
    (mapHas (termByNameOf vC10) (specEdge "C" "r").source = true ∧
      mapHas (termByNameOf vC10) (specEdge "C" "r").target = true) ∧
    (specEdge "C" "r" ∈ (computeDiagramModel (some vC10)).edges ∧
      mapHas (termByNameOf vC10) "r" = true ∧
      "r" ∉ (computeDiagramModel (some vC10)).nodes.map DiagramNode.id) :=
  c10_spec_endpoints_in_lookup vC10 (specEdge "C" "r") (by decide) (by decide)

end OmlDiagram
